import Mathlib

/-!
Shallow embedding of `src/analyzer.cpp` (a streaming trip aggregator with an
ingest pass and two top-k queries), together with theorems checking the
specification's claims against it.

Modelling conventions:
* A byte is a `Nat` (the value of the C++ `unsigned char`); a text line is a
  `List Nat`; a comma is byte 44, a space byte 32, a double quote byte 34,
  the digits are bytes 48–57.
* `std::string::find(',', start)` is `findComma`; `std::string::npos` becomes
  `none`.
* The parallel containers `zones`, `zoneCounts`, `hourCounts` of
  `TripAnalyzerImpl` are grown and indexed strictly in lockstep by the C++
  code, so the triple is modelled as one list of `Entry` records kept in the
  same index order.  The hash map `zoneIndex` always maps a zone string to
  its unique position inside `zones`, so its lookup is modelled as the
  positional scan `findZone`.
* Counters are `Nat`: the C++ `long long` counters start at zero and are only
  ever incremented by one.
* An input file is an `Option (List (List Nat))`: `none` models a file that
  cannot be opened, `some ls` the list of its lines.
* `std::nth_element` is nondeterministic up to its postcondition, so the two
  queries are modelled as relations between the aggregator state, `k` and a
  possible return value; `std::sort` applied with the strict total orders
  used here has a unique admissible result, modelled by `insertionSort` of
  the matching "may come before" relation.
-/

/-- `fastParseHour` (analyzer.cpp lines 14–26): the field must be at least 13
bytes, byte 10 a space, bytes 11–12 ASCII digits, and the two-digit value at
most 23.  (The C++ also tests `h >= 0`, which is automatic for digits.) -/
def fastParseHour (p : List Nat) : Option Nat :=
  if p.length < 13 then none
  else if p.getD 10 0 ≠ 32 then none
  else
    let c1 := p.getD 11 0
    let c2 := p.getD 12 0
    if ¬(48 ≤ c1 ∧ c1 ≤ 57) ∨ ¬(48 ≤ c2 ∧ c2 ≤ 57) then none
    else
      let h := (c1 - 48) * 10 + (c2 - 48)
      if h ≤ 23 then some h else none

/-- Scan a byte list for the first comma, carrying the absolute index of the
head of the remaining list. -/
def findCommaAux : List Nat → Nat → Option Nat
  | [], _ => none
  | b :: bs, i => if b = 44 then some i else findCommaAux bs (i + 1)

/-- `findComma` (analyzer.cpp lines 28–30): index of the first comma at
position ≥ `start`, or `none` for `npos`. -/
def findComma (s : List Nat) (start : Nat) : Option Nat :=
  findCommaAux (s.drop start) start

/-- The byte range `[a, a + len)` of a line (a pointer/length view). -/
def sliceBytes (line : List Nat) (a len : Nat) : List Nat :=
  (line.drop a).take len

/-- Lines 122–127: when the datetime field is at least 2 bytes long and both
its first and its last byte are a double quote, advance the pointer by one
and shrink the length by two — i.e. strip exactly those two bytes. -/
def stripQuotes (dt : List Nat) : List Nat :=
  if 2 ≤ dt.length ∧ dt.getD 0 0 = 34 ∧ dt.getD (dt.length - 1) 0 = 34 then
    (dt.drop 1).take (dt.length - 2)
  else dt

/-- One slot of the aggregator state: a zone string together with its total
counter (`zoneCounts[i]`) and its 24 hour counters (`hourCounts[i]`). -/
structure Entry where
  zone : List Nat
  total : Nat
  hours : List Nat
deriving DecidableEq

/-- Lookup through `zoneIndex`: position of the entry holding zone `z`. -/
def findZone : List Entry → List Nat → Option Nat
  | [], _ => none
  | e :: es, z => if e.zone = z then some 0 else (findZone es z).map (· + 1)

/-- Lines 151–152: `zoneCounts[idx] += 1; hourCounts[idx][hour] += 1`. -/
def bumpAt : List Entry → Nat → Nat → List Entry
  | [], _, _ => []
  | e :: es, 0, h =>
      { e with total := e.total + 1,
               hours := e.hours.set h (e.hours.getD h 0 + 1) } :: es
  | e :: es, i + 1, h => e :: bumpAt es i h

/-- Lines 138–146: a newly inserted zone starts with a zero total and 24 zero
hour counters. -/
def freshEntry (z : List Nat) : Entry :=
  ⟨z, 0, List.replicate 24 0⟩

/-- Lines 133–152: look the zone up; if absent, append it with zeroed
counters at index `zones.size()`; then increment its total and hour slot. -/
def processValid (s : List Entry) (z : List Nat) (h : Nat) : List Entry :=
  match findZone s z with
  | some idx => bumpAt s idx h
  | none => bumpAt (s ++ [freshEntry z]) s.length h

/-- Lines 90–130: find the first five commas (else skip), sliceBytes the zone
field between commas 0 and 1 (skip if empty), sliceBytes the datetime field
between commas 2 and 3 (skip if empty), strip a wrapping quote pair, and
parse the hour.  `none` means the line is discarded. -/
def parseLine (line : List Nat) : Option (List Nat × Nat) :=
  match findComma line 0 with
  | none => none
  | some c0 =>
    match findComma line (c0 + 1) with
    | none => none
    | some c1 =>
      match findComma line (c1 + 1) with
      | none => none
      | some c2 =>
        match findComma line (c2 + 1) with
        | none => none
        | some c3 =>
          match findComma line (c3 + 1) with
          | none => none
          | some _c4 =>
            let zStart := c0 + 1
            let zLen := if zStart < c1 then c1 - zStart else 0
            if zLen = 0 then none
            else
              let dtStart := c2 + 1
              let dtLen := if dtStart < c3 then c3 - dtStart else 0
              if dtLen = 0 then none
              else
                let dt := stripQuotes (sliceBytes line dtStart dtLen)
                match fastParseHour dt with
                | none => none
                | some h => some (sliceBytes line zStart zLen, h)

/-- Body of the `while (std::getline...)` loop (lines 87–153): an empty line
or a discarded line leaves the state unchanged. -/
def processLine (s : List Entry) (line : List Nat) : List Entry :=
  if line = [] then s
  else
    match parseLine line with
    | none => s
    | some (z, h) => processValid s z h

/-- The whole ingest loop over the data lines. -/
def processLines (s : List Entry) (lines : List (List Nat)) : List Entry :=
  lines.foldl processLine s

/-- `TripAnalyzer::ingestFile` (lines 69–154) at the level of one instance's
state: clear unconditionally, return on an unopenable file, discard the
header line, then fold the loop body over the data lines. -/
def ingestFile (_prev : List Entry) (src : Option (List (List Nat))) : List Entry :=
  -- impl->clearAll() runs before the open check: `_prev` is always discarded.
  match src with
  | none => []
  | some [] => []
  | some (_header :: rest) => processLines [] rest

/-- `ZoneCount` of analyzer.h: a zone with its total count. -/
structure ZoneCount where
  zone : List Nat
  count : Nat
deriving DecidableEq

/-- `SlotCount` of analyzer.h: a zone, an hour and the slot's count. -/
structure SlotCount where
  zone : List Nat
  hour : Nat
  count : Nat
deriving DecidableEq

/-- `operator<` on `std::string`: lexicographic comparison of byte values. -/
def bytesLt : List Nat → List Nat → Bool
  | _, [] => false
  | [], _ :: _ => true
  | a :: as, b :: bs => if a < b then true else if b < a then false else bytesLt as bs

/-- The comparator of `topZones` (lines 166–169): count descending, then
zone ascending. -/
def zcLess (a b : ZoneCount) : Bool :=
  if a.count ≠ b.count then decide (b.count < a.count)
  else bytesLt a.zone b.zone

/-- The comparator of `topBusySlots` (lines 196–200): count descending, then
zone ascending, then hour ascending. -/
def slotLess (a b : SlotCount) : Bool :=
  if a.count ≠ b.count then decide (b.count < a.count)
  else if a.zone ≠ b.zone then bytesLt a.zone b.zone
  else decide (a.hour < b.hour)

/-- `x` may come no later than `y` in a sequence sorted by the strict
comparator `cmp`. -/
def leOf (cmp : α → α → Bool) (x y : α) : Prop := cmp y x = false

instance (cmp : α → α → Bool) : DecidableRel (leOf cmp) := fun _ _ => by
  unfold leOf; infer_instance

/-- The sorted permutation produced by `std::sort` with comparator `cmp`
(unique whenever `cmp` is a strict total order). -/
def sortByCmp (cmp : α → α → Bool) (l : List α) : List α :=
  l.insertionSort (leOf cmp)

/-- Lines 159–164: the `(zone, count)` pairs in zone index order. -/
def zoneCountList (s : List Entry) : List ZoneCount :=
  s.map fun e => ⟨e.zone, e.total⟩

/-- Inner loop of lines 189–194: the non-zero hour slots of one zone, hours
ascending; zero-count slots are never emitted. -/
def slotsOfEntry (e : Entry) : List SlotCount :=
  (List.range 24).filterMap fun h =>
    let c := e.hours.getD h 0
    if c ≠ 0 then some ⟨e.zone, h, c⟩ else none

/-- Lines 186–194: all candidate slots, zone index order then hour order. -/
def slotList : List Entry → List SlotCount
  | [] => []
  | e :: es => slotsOfEntry e ++ slotList es

/-- The postcondition of `std::nth_element(first, first + k, last, cmp)` that
the code relies on: no kept element (prefix of length `k`) is preceded under
`cmp` by a discarded element (the suffix). -/
def nthPartitioned (cmp : α → α → Bool) (k : Nat) (mid : List α) : Prop :=
  ∀ x ∈ mid.take k, ∀ y ∈ mid.drop k, cmp y x = false

/-- `TripAnalyzer::topZones` (lines 156–181) as a relation between the state,
`k` and a possible return value: `k ≤ 0` returns empty; at most `k` zones
returns the full sort; otherwise `nth_element` (any permutation satisfying
its postcondition), truncation to `k`, and a sort of the kept prefix. -/
def TopZonesSpec (s : List Entry) (k : Int) (out : List ZoneCount) : Prop :=
  let result := zoneCountList s
  if k ≤ 0 then out = []
  else if (result.length : Int) ≤ k then out = sortByCmp zcLess result
  else
    ∃ mid : List ZoneCount, result.Perm mid ∧ nthPartitioned zcLess k.toNat mid ∧
      out = sortByCmp zcLess (mid.take k.toNat)

/-- `TripAnalyzer::topBusySlots` (lines 183–212) as a relation, in the same
shape as `TopZonesSpec`. -/
def TopBusySlotsSpec (s : List Entry) (k : Int) (out : List SlotCount) : Prop :=
  let all := slotList s
  if k ≤ 0 then out = []
  else if (all.length : Int) ≤ k then out = sortByCmp slotLess all
  else
    ∃ mid : List SlotCount, all.Perm mid ∧ nthPartitioned slotLess k.toNat mid ∧
      out = sortByCmp slotLess (mid.take k.toNat)

/-- The side table `implMap` (line 49): instance identity ↦ owned state. -/
abbrev ImplMap := List (Nat × List Entry)

/-- Lookup of `implMap.find(ta)`. -/
def lookupImpl : ImplMap → Nat → Option (List Entry)
  | [], _ => none
  | (i, st) :: rest, who => if i = who then some st else lookupImpl rest who

/-- `getImpl` (lines 51–60): return the possibly extended map together with
this instance's state, inserting a fresh empty state when absent. -/
def getImpl (m : ImplMap) (who : Nat) : ImplMap × List Entry :=
  match lookupImpl m who with
  | some st => (m, st)
  | none => (m ++ [(who, [])], [])

/-- `cleanupIfNeeded` (lines 63–65): clear the WHOLE side table once it holds
more than 200 entries. -/
def cleanupIfNeeded (m : ImplMap) : ImplMap :=
  if 200 < m.length then [] else m

/-- Replace the state bound to `who`. -/
def setImpl : ImplMap → Nat → List Entry → ImplMap
  | [], _, _ => []
  | (i, st) :: rest, who, v =>
      if i = who then (i, v) :: rest else (i, st) :: setImpl rest who v

/-- `TripAnalyzer::ingestFile` at the level of the whole side table:
`cleanupIfNeeded()`, then `getImpl(this)`, then clear + ingest into this
instance's slot. -/
def ingestFileImpl (m : ImplMap) (who : Nat) (src : Option (List (List Nat))) : ImplMap :=
  let m1 := cleanupIfNeeded m
  let m2 := (getImpl m1 who).1
  setImpl m2 who (ingestFile (getImpl m1 who).2 src)

/-! ### The comparators are strict total orders -/

theorem bytesLt_irrefl : ∀ a, bytesLt a a = false
  | [] => rfl
  | a :: as => by
      simp only [bytesLt, lt_irrefl, if_false]
      exact bytesLt_irrefl as

theorem bytesLt_asymm : ∀ a b, bytesLt a b = true → bytesLt b a = false
  | _, [], h => by simp [bytesLt] at h
  | [], _ :: _, _ => rfl
  | a :: as, b :: bs, h => by
      simp only [bytesLt] at h ⊢
      rcases Nat.lt_trichotomy a b with hab | hab | hab
      · simp [hab, Nat.lt_asymm hab, Nat.ne_of_lt hab]
      · subst hab
        simp only [lt_irrefl, if_false] at h ⊢
        exact bytesLt_asymm as bs h
      · simp [hab, Nat.lt_asymm hab] at h

theorem bytesLt_conn : ∀ a b, bytesLt a b = false → bytesLt b a = false → a = b
  | [], [], _, _ => rfl
  | [], _ :: _, h, _ => by simp [bytesLt] at h
  | _ :: _, [], _, h => by simp [bytesLt] at h
  | a :: as, b :: bs, h₁, h₂ => by
      simp only [bytesLt] at h₁ h₂
      rcases Nat.lt_trichotomy a b with hab | hab | hab
      · simp [hab] at h₁
      · subst hab
        simp only [lt_irrefl, if_false] at h₁ h₂
        rw [bytesLt_conn as bs h₁ h₂]
      · simp [hab] at h₂

theorem bytesLt_trans : ∀ a b c, bytesLt a b = true → bytesLt b c = true → bytesLt a c = true
  | _, _, [], _, h => by simp [bytesLt] at h
  | [], _, _ :: _, _, _ => rfl
  | _ :: _, [], _, h, _ => by simp [bytesLt] at h
  | a :: as, b :: bs, c :: cs, h₁, h₂ => by
      simp only [bytesLt] at h₁ h₂ ⊢
      rcases Nat.lt_trichotomy a b with hab | hab | hab
      · rcases Nat.lt_trichotomy b c with hbc | hbc | hbc
        · have hac := Nat.lt_trans hab hbc
          simp [hac]
        · subst hbc; simp [hab]
        · simp [hbc, Nat.lt_asymm hbc] at h₂
      · subst hab
        rcases Nat.lt_trichotomy a c with hbc | hbc | hbc
        · simp [hbc]
        · subst hbc
          simp only [lt_irrefl, if_false] at h₁ h₂ ⊢
          exact bytesLt_trans as bs cs h₁ h₂
        · simp [hbc, Nat.lt_asymm hbc] at h₂
      · simp [hab, Nat.lt_asymm hab] at h₁

theorem zcLess_asymm (a b : ZoneCount) : zcLess a b = true → zcLess b a = false := by
  unfold zcLess
  by_cases hc : a.count = b.count
  · rw [if_neg (by simp [hc] : ¬a.count ≠ b.count), if_neg (by simp [hc] : ¬b.count ≠ a.count)]
    exact bytesLt_asymm _ _
  · rw [if_pos hc, if_pos (Ne.symm hc)]
    simp only [decide_eq_true_eq, decide_eq_false_iff_not]
    omega

theorem zcLess_conn (a b : ZoneCount) :
    zcLess a b = false → zcLess b a = false → a = b := by
  unfold zcLess
  by_cases hc : a.count = b.count
  · rw [if_neg (by simp [hc] : ¬a.count ≠ b.count), if_neg (by simp [hc] : ¬b.count ≠ a.count)]
    intro h₁ h₂
    cases a; cases b
    simp_all
    exact bytesLt_conn _ _ h₁ h₂
  · rw [if_pos hc, if_pos (Ne.symm hc)]
    simp only [decide_eq_false_iff_not]
    omega

theorem zcLess_trans (a b c : ZoneCount) :
    zcLess a b = true → zcLess b c = true → zcLess a c = true := by
  unfold zcLess
  by_cases hab : a.count = b.count <;> by_cases hbc : b.count = c.count
  · have hac : a.count = c.count := hab.trans hbc
    simp only [ne_eq, hab, hbc, hac, not_true_eq_false, if_false]
    exact bytesLt_trans _ _ _
  · have hac : a.count ≠ c.count := by omega
    simp only [ne_eq, hab, hbc, hac, not_true_eq_false, not_false_eq_true,
      if_false, if_true, decide_eq_true_eq]
    intro _ h
    omega
  · have hac : a.count ≠ c.count := by omega
    simp only [ne_eq, hab, hbc, hac, not_true_eq_false, not_false_eq_true,
      if_false, if_true, decide_eq_true_eq]
    intro h _
    omega
  · simp only [ne_eq, hab, hbc, not_false_eq_true, if_true, decide_eq_true_eq]
    intro h₁ h₂
    by_cases hac : a.count = c.count
    · omega
    · simp only [ne_eq, hac, not_false_eq_true, if_true, decide_eq_true_eq]
      omega

theorem slotLess_asymm (a b : SlotCount) : slotLess a b = true → slotLess b a = false := by
  unfold slotLess
  by_cases hc : a.count = b.count
  · by_cases hz : a.zone = b.zone
    · simp only [hc, hz, ne_eq, not_true_eq_false, if_false, decide_eq_true_eq,
        decide_eq_false_iff_not]
      omega
    · simp only [hc, ne_eq, hz, not_true_eq_false, not_false_eq_true, if_false, if_true,
        Ne.symm hz]
      exact bytesLt_asymm _ _
  · intro h
    simp only [ne_eq, hc, not_false_eq_true, if_true, decide_eq_true_eq] at h
    simp [Ne.symm hc, Nat.lt_asymm h]

theorem slotLess_conn (a b : SlotCount) :
    slotLess a b = false → slotLess b a = false → a = b := by
  unfold slotLess
  by_cases hc : a.count = b.count
  · by_cases hz : a.zone = b.zone
    · simp only [hc, hz, ne_eq, not_true_eq_false, if_false, decide_eq_false_iff_not]
      intro h₁ h₂
      cases a; cases b
      simp_all
      omega
    · simp only [hc, ne_eq, hz, not_true_eq_false, not_false_eq_true, if_false, if_true,
        Ne.symm hz]
      intro h₁ h₂
      exact absurd (bytesLt_conn _ _ h₁ h₂) hz
  · intro h₁ h₂
    simp only [ne_eq, hc, not_false_eq_true, if_true, decide_eq_false_iff_not] at h₁
    simp only [ne_eq, Ne.symm hc, not_false_eq_true, if_true, decide_eq_false_iff_not] at h₂
    omega

theorem slotLess_trans (a b c : SlotCount) :
    slotLess a b = true → slotLess b c = true → slotLess a c = true := by
  unfold slotLess
  by_cases hab : a.count = b.count <;> by_cases hbc : b.count = c.count
  · have hac : a.count = c.count := hab.trans hbc
    simp only [ne_eq, hab, hbc, hac, not_true_eq_false, if_false]
    by_cases hzab : a.zone = b.zone <;> by_cases hzbc : b.zone = c.zone
    · have hzac : a.zone = c.zone := hzab.trans hzbc
      simp only [hzab, hzbc, hzac, not_true_eq_false, if_false, decide_eq_true_eq]
      omega
    · have hzac : a.zone ≠ c.zone := by rw [hzab]; exact hzbc
      simp only [hzab, hzbc, hzac, not_true_eq_false, not_false_eq_true, if_false, if_true]
      intro _ h
      exact h
    · have hzac : a.zone ≠ c.zone := by rw [← hzbc]; exact hzab
      simp only [hzab, hzbc, hzac, not_true_eq_false, not_false_eq_true, if_false, if_true]
      intro h _
      exact h
    · simp only [hzab, hzbc, not_false_eq_true, if_true]
      intro h₁ h₂
      by_cases hzac : a.zone = c.zone
      · exfalso
        rw [hzac] at h₁
        rw [bytesLt_asymm _ _ h₂] at h₁
        exact Bool.noConfusion h₁
      · simp only [hzac, not_false_eq_true, if_true]
        exact bytesLt_trans _ _ _ h₁ h₂
  · have hac : a.count ≠ c.count := by omega
    simp only [ne_eq, hab, hbc, hac, not_true_eq_false, not_false_eq_true,
      if_false, if_true, decide_eq_true_eq]
    intro _ h
    omega
  · have hac : a.count ≠ c.count := by omega
    simp only [ne_eq, hab, hbc, hac, not_true_eq_false, not_false_eq_true,
      if_false, if_true, decide_eq_true_eq]
    intro h _
    omega
  · simp only [ne_eq, hab, hbc, not_false_eq_true, if_true, decide_eq_true_eq]
    intro h₁ h₂
    by_cases hac : a.count = c.count
    · omega
    · simp only [ne_eq, hac, not_false_eq_true, if_true, decide_eq_true_eq]
      omega

/-! ### Generic facts: a strict total comparator, its sort and `nth_element` -/

theorem leOf_total (cmp : α → α → Bool)
    (hasym : ∀ a b, cmp a b = true → cmp b a = false) :
    ∀ a b, leOf cmp a b ∨ leOf cmp b a := by
  intro a b
  unfold leOf
  cases hab : cmp b a with
  | false => exact Or.inl rfl
  | true => exact Or.inr (hasym _ _ hab)

theorem leOf_trans (cmp : α → α → Bool)
    (hconn : ∀ a b, cmp a b = false → cmp b a = false → a = b)
    (htr : ∀ a b c, cmp a b = true → cmp b c = true → cmp a c = true) :
    ∀ a b c, leOf cmp a b → leOf cmp b c → leOf cmp a c := by
  intro a b c hab hbc
  unfold leOf at *
  cases hca : cmp c a with
  | false => rfl
  | true =>
    exfalso
    cases hbcb : cmp b c with
    | true =>
      have hba : cmp b a = true := htr _ _ _ hbcb hca
      rw [hba] at hab
      exact Bool.noConfusion hab
    | false =>
      have hbceq : b = c := hconn _ _ hbcb hbc
      rw [hbceq, hca] at hab
      exact Bool.noConfusion hab

theorem leOf_antisymm (cmp : α → α → Bool)
    (hconn : ∀ a b, cmp a b = false → cmp b a = false → a = b) :
    ∀ a b, leOf cmp a b → leOf cmp b a → a = b :=
  fun a b hab hba => hconn a b hba hab

/-- Core correctness of the partial-selection path: sorting the prefix kept
after a correct `nth_element` followed by `resize(k)` gives exactly the
`k`-prefix of the full sort, for any strict total comparator. -/
theorem sortByCmp_take_of_nthPartitioned (cmp : α → α → Bool)
    (hasym : ∀ a b, cmp a b = true → cmp b a = false)
    (hconn : ∀ a b, cmp a b = false → cmp b a = false → a = b)
    (htr : ∀ a b c, cmp a b = true → cmp b c = true → cmp a c = true)
    (k : Nat) (l mid : List α) (hk : k ≤ mid.length)
    (hperm : l.Perm mid) (hpart : nthPartitioned cmp k mid) :
    sortByCmp cmp (mid.take k) = (sortByCmp cmp l).take k := by
  haveI : IsTotal α (leOf cmp) := ⟨leOf_total cmp hasym⟩
  haveI : IsTrans α (leOf cmp) := ⟨leOf_trans cmp hconn htr⟩
  haveI : IsAntisymm α (leOf cmp) := ⟨leOf_antisymm cmp hconn⟩
  have hA : List.Sorted (leOf cmp) (sortByCmp cmp (mid.take k)) :=
    List.sorted_insertionSort _ _
  have hB : List.Sorted (leOf cmp) (sortByCmp cmp (mid.drop k)) :=
    List.sorted_insertionSort _ _
  have hcross : ∀ x ∈ sortByCmp cmp (mid.take k), ∀ y ∈ sortByCmp cmp (mid.drop k),
      leOf cmp x y := by
    intro x hx y hy
    exact hpart x ((List.perm_insertionSort _ _).mem_iff.mp hx) y
      ((List.perm_insertionSort _ _).mem_iff.mp hy)
  have hAB : List.Sorted (leOf cmp)
      (sortByCmp cmp (mid.take k) ++ sortByCmp cmp (mid.drop k)) := by
    rw [List.Sorted, List.pairwise_append]
    exact ⟨hA, hB, hcross⟩
  have hpermMid : (sortByCmp cmp (mid.take k) ++ sortByCmp cmp (mid.drop k)).Perm mid := by
    have h1 := (List.perm_insertionSort (leOf cmp) (mid.take k)).append
      (List.perm_insertionSort (leOf cmp) (mid.drop k))
    rw [List.take_append_drop] at h1
    exact h1
  have hpermAB : (sortByCmp cmp l).Perm
      (sortByCmp cmp (mid.take k) ++ sortByCmp cmp (mid.drop k)) :=
    (List.perm_insertionSort _ _).trans (hperm.trans hpermMid.symm)
  have heq : sortByCmp cmp l
      = sortByCmp cmp (mid.take k) ++ sortByCmp cmp (mid.drop k) :=
    List.eq_of_perm_of_sorted hpermAB (List.sorted_insertionSort _ _) hAB
  rw [heq]
  have hlenA : (sortByCmp cmp (mid.take k)).length = k := by
    unfold sortByCmp
    rw [(List.perm_insertionSort _ _).length_eq, List.length_take]
    omega
  rw [List.take_left' hlenA]

/-! ### Claims about the two queries -/

theorem slotList_count_ne_zero : ∀ (s : List Entry), ∀ x ∈ slotList s, x.count ≠ 0
  | [], x, hx => by simp [slotList] at hx
  | e :: es, x, hx => by
      rw [slotList, List.mem_append] at hx
      cases hx with
      | inl h =>
        rw [slotsOfEntry, List.mem_filterMap] at h
        obtain ⟨a, -, ha⟩ := h
        by_cases hc : e.hours.getD a 0 ≠ 0
        · rw [if_pos hc] at ha
          cases ha
          exact hc
        · rw [if_neg hc] at ha
          cases ha
      | inr h => exact slotList_count_ne_zero es x h

/-- **C1.** For every aggregator state and every `k > 0`, any value that
`topZones(k)` can return is exactly the `min(k, number of zones)`-prefix of
the full (count descending, zone ascending) sort of all `(zone, total)`
pairs — including on the partial-selection (`nth_element`) path taken when
more than `k` zones exist, and so also at ties at the `k`-th boundary. -/
theorem topZones_exact_topk (s : List Entry) (k : Int) (out : List ZoneCount)
    (hk : 0 < k) (hspec : TopZonesSpec s k out) :
    out = (sortByCmp zcLess (zoneCountList s)).take k.toNat := by
  simp only [TopZonesSpec] at hspec
  rw [if_neg (by omega : ¬k ≤ 0)] at hspec
  by_cases hlen : ((zoneCountList s).length : Int) ≤ k
  · rw [if_pos hlen] at hspec
    rw [hspec]
    have hl : (sortByCmp zcLess (zoneCountList s)).length ≤ k.toNat := by
      unfold sortByCmp
      rw [(List.perm_insertionSort _ _).length_eq]
      omega
    rw [List.take_of_length_le hl]
  · rw [if_neg hlen] at hspec
    obtain ⟨mid, hperm, hpart, hout⟩ := hspec
    rw [hout]
    exact sortByCmp_take_of_nthPartitioned zcLess zcLess_asymm zcLess_conn zcLess_trans
      k.toNat (zoneCountList s) mid (by rw [← hperm.length_eq]; omega) hperm hpart

theorem topZones_exact_topk_witness :
    [ZoneCount.mk [65] 2]
      = (sortByCmp zcLess (zoneCountList [⟨[66], 1, []⟩, ⟨[65], 2, []⟩])).take
          (Int.toNat 1) :=
  topZones_exact_topk [⟨[66], 1, []⟩, ⟨[65], 2, []⟩] 1 [⟨[65], 2⟩] (by decide)
    (by
      simp only [TopZonesSpec]
      rw [if_neg (by decide), if_neg (by decide)]
      exact ⟨[⟨[65], 2⟩, ⟨[66], 1⟩], by decide, by unfold nthPartitioned; decide, by decide⟩)

/-- **C2.** For every aggregator state and every `k > 0`, any value that
`topBusySlots(k)` can return is exactly the `min(k, number of candidates)`-
prefix of the full (count descending, zone ascending, hour ascending) sort of
the candidate list — the non-zero `(zone, hour)` slots — and no returned slot
has a zero count. -/
theorem topBusySlots_exact_topk (s : List Entry) (k : Int) (out : List SlotCount)
    (hk : 0 < k) (hspec : TopBusySlotsSpec s k out) :
    out = (sortByCmp slotLess (slotList s)).take k.toNat ∧
      ∀ x ∈ out, x.count ≠ 0 := by
  have hmain : out = (sortByCmp slotLess (slotList s)).take k.toNat := by
    simp only [TopBusySlotsSpec] at hspec
    rw [if_neg (by omega : ¬k ≤ 0)] at hspec
    by_cases hlen : ((slotList s).length : Int) ≤ k
    · rw [if_pos hlen] at hspec
      rw [hspec]
      have hl : (sortByCmp slotLess (slotList s)).length ≤ k.toNat := by
        unfold sortByCmp
        rw [(List.perm_insertionSort _ _).length_eq]
        omega
      rw [List.take_of_length_le hl]
    · rw [if_neg hlen] at hspec
      obtain ⟨mid, hperm, hpart, hout⟩ := hspec
      rw [hout]
      exact sortByCmp_take_of_nthPartitioned slotLess slotLess_asymm slotLess_conn
        slotLess_trans k.toNat (slotList s) mid (by rw [← hperm.length_eq]; omega)
        hperm hpart
  refine ⟨hmain, ?_⟩
  intro x hx
  rw [hmain] at hx
  have hx' : x ∈ sortByCmp slotLess (slotList s) := List.mem_of_mem_take hx
  have hx'' : x ∈ slotList s := (List.perm_insertionSort _ _).mem_iff.mp hx'
  exact slotList_count_ne_zero s x hx''

theorem topBusySlots_exact_topk_witness :
    ([SlotCount.mk [65] 8 2]
        = (sortByCmp slotLess
            (slotList [⟨[65], 2, List.replicate 8 0 ++ [2] ++ List.replicate 15 0⟩])).take
          (Int.toNat 5) ∧
      ∀ x ∈ [SlotCount.mk [65] 8 2], x.count ≠ 0) :=
  topBusySlots_exact_topk [⟨[65], 2, List.replicate 8 0 ++ [2] ++ List.replicate 15 0⟩]
    5 [⟨[65], 8, 2⟩] (by decide)
    (by
      simp only [TopBusySlotsSpec]
      rw [if_neg (by decide), if_pos (by decide)]
      decide)

/-- **C8.** For every aggregator state and every `k ≤ 0`, both `topZones(k)`
and `topBusySlots(k)` return the empty sequence, whatever was counted. -/
theorem topk_nonpositive_empty (s : List Entry) (k : Int)
    (outZ : List ZoneCount) (outS : List SlotCount) (hk : k ≤ 0)
    (h1 : TopZonesSpec s k outZ) (h2 : TopBusySlotsSpec s k outS) :
    outZ = [] ∧ outS = [] := by
  simp only [TopZonesSpec] at h1
  simp only [TopBusySlotsSpec] at h2
  rw [if_pos hk] at h1 h2
  exact ⟨h1, h2⟩

theorem topk_nonpositive_empty_witness :
    ([] : List ZoneCount) = [] ∧ ([] : List SlotCount) = [] :=
  topk_nonpositive_empty [⟨[65], 2, []⟩] (-1) [] [] (by decide)
    (by simp [TopZonesSpec])
    (by simp [TopBusySlotsSpec])

/-- **C10.** On an instance on which ingest has never been called (no entry
in the side table), both queries lazily create an empty state and return the
empty sequence for every `k`. -/
theorem fresh_instance_queries_empty (m : ImplMap) (who : Nat) (k : Int)
    (outZ : List ZoneCount) (outS : List SlotCount)
    (hfresh : lookupImpl m who = none)
    (h1 : TopZonesSpec (getImpl m who).2 k outZ)
    (h2 : TopBusySlotsSpec (getImpl m who).2 k outS) :
    outZ = [] ∧ outS = [] ∧ (getImpl m who).2 = [] := by
  have hstate : (getImpl m who).2 = [] := by
    unfold getImpl
    rw [hfresh]
  rw [hstate] at h1 h2
  refine ⟨?_, ?_, hstate⟩
  · simp only [TopZonesSpec, zoneCountList, List.map_nil] at h1
    by_cases hk : k ≤ 0
    · rw [if_pos hk] at h1
      exact h1
    · rw [if_neg hk, if_pos (by simp; omega)] at h1
      simpa [sortByCmp] using h1
  · simp only [TopBusySlotsSpec, slotList] at h2
    by_cases hk : k ≤ 0
    · rw [if_pos hk] at h2
      exact h2
    · rw [if_neg hk, if_pos (by simp; omega)] at h2
      simpa [sortByCmp] using h2

theorem fresh_instance_queries_empty_witness :
    ([] : List ZoneCount) = [] ∧ ([] : List SlotCount) = [] ∧
      (getImpl [] 0).2 = [] :=
  fresh_instance_queries_empty [] 0 3 [] [] rfl
    (by simp [TopZonesSpec, getImpl, lookupImpl, zoneCountList, sortByCmp])
    (by simp [TopBusySlotsSpec, getImpl, lookupImpl, slotList, sortByCmp])

/-! ### Facts about comma scanning and line skipping -/

theorem findCommaAux_ge : ∀ (l : List Nat) (i c : Nat), findCommaAux l i = some c → i ≤ c
  | [], _, _, h => by simp [findCommaAux] at h
  | b :: bs, i, c, h => by
      rw [findCommaAux] at h
      by_cases hb : b = 44
      · rw [if_pos hb] at h
        cases h
        omega
      · rw [if_neg hb] at h
        have := findCommaAux_ge bs (i + 1) c h
        omega

theorem findCommaAux_some_count : ∀ (l : List Nat) (i c : Nat),
    findCommaAux l i = some c → l.count 44 = (l.drop (c - i + 1)).count 44 + 1
  | [], i, c, h => by simp [findCommaAux] at h
  | b :: bs, i, c, h => by
      rw [findCommaAux] at h
      by_cases hb : b = 44
      · rw [if_pos hb] at h
        cases h
        have h1 : i - i + 1 = 1 := by omega
        rw [h1]
        simp [List.count_cons, hb]
      · rw [if_neg hb] at h
        have hge := findCommaAux_ge bs (i + 1) c h
        have ih := findCommaAux_some_count bs (i + 1) c h
        have hdrop : (b :: bs).drop (c - i + 1) = bs.drop (c - (i + 1) + 1) := by
          have h2 : c - i + 1 = (c - (i + 1) + 1) + 1 := by omega
          rw [h2, List.drop_succ_cons]
        rw [hdrop, List.count_cons, ih]
        simp [hb]

/-- A successful `findComma` consumes exactly one comma of the tail. -/
theorem findComma_count (line : List Nat) (start c : Nat)
    (h : findComma line start = some c) :
    (line.drop start).count 44 = (line.drop (c + 1)).count 44 + 1 ∧ start ≤ c := by
  unfold findComma at h
  have hge := findCommaAux_ge _ _ _ h
  have hcount := findCommaAux_some_count _ _ _ h
  refine ⟨?_, hge⟩
  have h3 : start + (c - start + 1) = c + 1 := by omega
  rw [hcount, List.drop_drop, h3]

/-- With fewer than five commas on the line, one of the five `find` calls
fails and the line is discarded. -/
theorem parseLine_none_of_count_lt (line : List Nat) (hc : line.count 44 < 5) :
    parseLine line = none := by
  unfold parseLine
  cases h0 : findComma line 0 with
  | none => rfl
  | some c0 =>
    dsimp only
    cases h1 : findComma line (c0 + 1) with
    | none => rfl
    | some c1 =>
      dsimp only
      cases h2 : findComma line (c1 + 1) with
      | none => rfl
      | some c2 =>
        dsimp only
        cases h3 : findComma line (c2 + 1) with
        | none => rfl
        | some c3 =>
          dsimp only
          cases h4 : findComma line (c3 + 1) with
          | none => rfl
          | some c4 =>
            exfalso
            have k0 := findComma_count line 0 c0 h0
            have k1 := findComma_count line (c0 + 1) c1 h1
            have k2 := findComma_count line (c1 + 1) c2 h2
            have k3 := findComma_count line (c2 + 1) c3 h3
            have k4 := findComma_count line (c3 + 1) c4 h4
            rw [List.drop_zero] at k0
            omega

/-- An empty zone field (commas 0 and 1 adjacent) discards the line. -/
theorem parseLine_none_of_empty_zone (line : List Nat) (c0 c1 : Nat)
    (h0 : findComma line 0 = some c0) (h1 : findComma line (c0 + 1) = some c1)
    (hz : c1 = c0 + 1) : parseLine line = none := by
  unfold parseLine
  rw [h0]
  dsimp only
  rw [h1]
  dsimp only
  cases h2 : findComma line (c1 + 1) with
  | none => rfl
  | some c2 =>
    dsimp only
    cases h3 : findComma line (c2 + 1) with
    | none => rfl
    | some c3 =>
      dsimp only
      cases h4 : findComma line (c3 + 1) with
      | none => rfl
      | some c4 =>
        dsimp only
        rw [hz]
        simp

/-- An empty datetime field (commas 2 and 3 adjacent) discards the line. -/
theorem parseLine_none_of_empty_dt (line : List Nat) (c0 c1 c2 c3 : Nat)
    (h0 : findComma line 0 = some c0) (h1 : findComma line (c0 + 1) = some c1)
    (h2 : findComma line (c1 + 1) = some c2) (h3 : findComma line (c2 + 1) = some c3)
    (hdt : c3 = c2 + 1) : parseLine line = none := by
  unfold parseLine
  rw [h0]
  dsimp only
  rw [h1]
  dsimp only
  rw [h2]
  dsimp only
  rw [h3]
  dsimp only
  cases h4 : findComma line (c3 + 1) with
  | none => rfl
  | some c4 =>
    dsimp only
    by_cases hzl : (if c0 + 1 < c1 then c1 - (c0 + 1) else 0) = 0
    · rw [if_pos hzl]
    · rw [if_neg hzl, hdt]
      simp

/-- A line whose `parseLine` fails leaves the aggregator state unchanged. -/
theorem processLine_eq_of_parseLine_none (s : List Entry) (line : List Nat)
    (h : parseLine line = none) : processLine s line = s := by
  unfold processLine
  by_cases hl : line = []
  · rw [if_pos hl]
  · rw [if_neg hl, h]

/-- **C3.** Every data line is either counted or skipped without affecting
any other line: a line is skipped when it is empty, when it has fewer than
five commas, when the zone field (strictly between commas 0 and 1) is empty,
or when the datetime field (strictly between commas 2 and 3) is empty; a
skipped line leaves the state unchanged and the fold simply continues with
the next line (the model returns only the resulting state — no error or skip
count exists to report). -/
theorem ingest_skip_conditions (s : List Entry) (line : List Nat)
    (rest : List (List Nat)) :
    (line = [] → processLine s line = s) ∧
    (line.count 44 < 5 → processLine s line = s) ∧
    (∀ c0 c1, findComma line 0 = some c0 → findComma line (c0 + 1) = some c1 →
      c1 = c0 + 1 → processLine s line = s) ∧
    (∀ c0 c1 c2 c3, findComma line 0 = some c0 → findComma line (c0 + 1) = some c1 →
      findComma line (c1 + 1) = some c2 → findComma line (c2 + 1) = some c3 →
      c3 = c2 + 1 → processLine s line = s) ∧
    (processLine s line = s → processLines s (line :: rest) = processLines s rest) := by
  refine ⟨?_, ?_, ?_, ?_, ?_⟩
  · intro h
    unfold processLine
    rw [if_pos h]
  · intro h
    exact processLine_eq_of_parseLine_none s line (parseLine_none_of_count_lt line h)
  · intro c0 c1 h0 h1 hz
    exact processLine_eq_of_parseLine_none s line
      (parseLine_none_of_empty_zone line c0 c1 h0 h1 hz)
  · intro c0 c1 c2 c3 h0 h1 h2 h3 hdt
    exact processLine_eq_of_parseLine_none s line
      (parseLine_none_of_empty_dt line c0 c1 c2 c3 h0 h1 h2 h3 hdt)
  · intro h
    unfold processLines
    rw [List.foldl_cons, h]

theorem ingest_skip_conditions_witness : processLine [] [65, 44, 66] = [] :=
  (ingest_skip_conditions [] [65, 44, 66] []).2.1 (by decide)

/-- An invalid hour in the datetime field discards the line. -/
theorem parseLine_none_of_bad_hour (line : List Nat) (c0 c1 c2 c3 c4 : Nat)
    (h0 : findComma line 0 = some c0) (h1 : findComma line (c0 + 1) = some c1)
    (h2 : findComma line (c1 + 1) = some c2) (h3 : findComma line (c2 + 1) = some c3)
    (h4 : findComma line (c3 + 1) = some c4)
    (hfp : fastParseHour (stripQuotes (sliceBytes line (c2 + 1)
      (if c2 + 1 < c3 then c3 - (c2 + 1) else 0))) = none) :
    parseLine line = none := by
  unfold parseLine
  rw [h0]
  dsimp only
  rw [h1]
  dsimp only
  rw [h2]
  dsimp only
  rw [h3]
  dsimp only
  rw [h4]
  dsimp only
  by_cases hzl : (if c0 + 1 < c1 then c1 - (c0 + 1) else 0) = 0
  · rw [if_pos hzl]
  · rw [if_neg hzl]
    by_cases hdl : (if c2 + 1 < c3 then c3 - (c2 + 1) else 0) = 0
    · rw [if_pos hdl]
    · rw [if_neg hdl, hfp]

/-- **C4.** Quote stripping removes exactly the wrapping pair of quote bytes
when (and only when) the field is at least 2 bytes with a quote first and
last; the (possibly stripped) field yields a valid hour iff it is at least
13 bytes, byte 10 is a space, bytes 11–12 are ASCII digits and the two-digit
value is at most 23, in which case the extracted hour is that value; any
violation discards the line. -/
theorem hour_extraction_spec (dt d line : List Nat) (s : List Entry) :
    (2 ≤ dt.length → dt.getD 0 0 = 34 → dt.getD (dt.length - 1) 0 = 34 →
      stripQuotes dt = dt.tail.dropLast) ∧
    (¬(2 ≤ dt.length ∧ dt.getD 0 0 = 34 ∧ dt.getD (dt.length - 1) 0 = 34) →
      stripQuotes dt = dt) ∧
    (∀ h, fastParseHour d = some h ↔
      (13 ≤ d.length ∧ d.getD 10 0 = 32 ∧
        (48 ≤ d.getD 11 0 ∧ d.getD 11 0 ≤ 57) ∧ (48 ≤ d.getD 12 0 ∧ d.getD 12 0 ≤ 57) ∧
        h = (d.getD 11 0 - 48) * 10 + (d.getD 12 0 - 48) ∧ h ≤ 23)) ∧
    (∀ c0 c1 c2 c3 c4, findComma line 0 = some c0 → findComma line (c0 + 1) = some c1 →
      findComma line (c1 + 1) = some c2 → findComma line (c2 + 1) = some c3 →
      findComma line (c3 + 1) = some c4 →
      fastParseHour (stripQuotes (sliceBytes line (c2 + 1)
        (if c2 + 1 < c3 then c3 - (c2 + 1) else 0))) = none →
      processLine s line = s) := by
  refine ⟨?_, ?_, ?_, ?_⟩
  · intro hlen hfirst hlast
    unfold stripQuotes
    rw [if_pos ⟨hlen, hfirst, hlast⟩, List.drop_one, List.dropLast_eq_take,
      List.length_tail]
    congr 1
  · intro hne
    unfold stripQuotes
    rw [if_neg hne]
  · intro h
    simp only [fastParseHour]
    by_cases hl : d.length < 13
    · rw [if_pos hl]
      exact iff_of_false (by simp) (by omega)
    · rw [if_neg hl]
      by_cases hsp : d.getD 10 0 ≠ 32
      · rw [if_pos hsp]
        exact iff_of_false (by simp) (by omega)
      · rw [if_neg hsp]
        by_cases hdig : ¬(48 ≤ d.getD 11 0 ∧ d.getD 11 0 ≤ 57) ∨
            ¬(48 ≤ d.getD 12 0 ∧ d.getD 12 0 ≤ 57)
        · rw [if_pos hdig]
          exact iff_of_false (by simp) (by omega)
        · rw [if_neg hdig]
          by_cases hv : (d.getD 11 0 - 48) * 10 + (d.getD 12 0 - 48) ≤ 23
          · rw [if_pos hv]
            simp only [Option.some.injEq]
            constructor
            · intro heq
              omega
            · intro hr
              omega
          · rw [if_neg hv]
            exact iff_of_false (by simp) (by omega)
  · intro c0 c1 c2 c3 c4 h0 h1 h2 h3 h4 hfp
    exact processLine_eq_of_parseLine_none s line
      (parseLine_none_of_bad_hour line c0 c1 c2 c3 c4 h0 h1 h2 h3 h4 hfp)

theorem hour_extraction_spec_witness :
    stripQuotes [34, 50, 48, 50, 52, 45, 48, 49, 45, 48, 49, 32, 48, 56, 58, 51, 48, 34]
      = List.dropLast
          (List.tail [34, 50, 48, 50, 52, 45, 48, 49, 45, 48, 49, 32, 48, 56, 58, 51, 48, 34]) :=
  (hour_extraction_spec
      [34, 50, 48, 50, 52, 45, 48, 49, 45, 48, 49, 32, 48, 56, 58, 51, 48, 34]
      [] [] []).1 (by decide) (by decide) (by decide)

/-! ### Conservation of counts during ingest -/

/-- Sum of the `zoneCounts` vector. -/
def sumTotals (s : List Entry) : Nat := (s.map Entry.total).sum

/-- The per-entry invariant: 24 hour slots whose sum is the zone total. -/
def EntryInv (e : Entry) : Prop := e.hours.length = 24 ∧ e.hours.sum = e.total

theorem sum_set_getD_succ : ∀ (l : List Nat) (i : Nat), i < l.length →
    (l.set i (l.getD i 0 + 1)).sum = l.sum + 1
  | [], i, h => by simp at h
  | x :: xs, 0, _ => by
      simp only [List.getD_cons_zero, List.set_cons_zero, List.sum_cons]
      omega
  | x :: xs, i + 1, h => by
      have ih := sum_set_getD_succ xs i (by simpa using h)
      simp only [List.getD_cons_succ, List.set_cons_succ, List.sum_cons, ih]
      omega

theorem fastParseHour_lt (p : List Nat) (h : Nat) (hp : fastParseHour p = some h) :
    h < 24 := by
  simp only [fastParseHour] at hp
  by_cases h1 : p.length < 13
  · rw [if_pos h1] at hp
    cases hp
  · rw [if_neg h1] at hp
    by_cases h2 : p.getD 10 0 ≠ 32
    · rw [if_pos h2] at hp
      cases hp
    · rw [if_neg h2] at hp
      by_cases h3 : ¬(48 ≤ p.getD 11 0 ∧ p.getD 11 0 ≤ 57) ∨
          ¬(48 ≤ p.getD 12 0 ∧ p.getD 12 0 ≤ 57)
      · rw [if_pos h3] at hp
        cases hp
      · rw [if_neg h3] at hp
        by_cases h4 : (p.getD 11 0 - 48) * 10 + (p.getD 12 0 - 48) ≤ 23
        · rw [if_pos h4] at hp
          cases hp
          omega
        · rw [if_neg h4] at hp
          cases hp

theorem parseLine_hour_lt (line z : List Nat) (h : Nat)
    (hp : parseLine line = some (z, h)) : h < 24 := by
  unfold parseLine at hp
  cases h0 : findComma line 0 with
  | none => rw [h0] at hp; cases hp
  | some c0 =>
    rw [h0] at hp
    dsimp only at hp
    cases h1 : findComma line (c0 + 1) with
    | none => rw [h1] at hp; cases hp
    | some c1 =>
      rw [h1] at hp
      dsimp only at hp
      cases h2 : findComma line (c1 + 1) with
      | none => rw [h2] at hp; cases hp
      | some c2 =>
        rw [h2] at hp
        dsimp only at hp
        cases h3 : findComma line (c2 + 1) with
        | none => rw [h3] at hp; cases hp
        | some c3 =>
          rw [h3] at hp
          dsimp only at hp
          cases h4 : findComma line (c3 + 1) with
          | none => rw [h4] at hp; cases hp
          | some c4 =>
            rw [h4] at hp
            dsimp only at hp
            by_cases hzl : (if c0 + 1 < c1 then c1 - (c0 + 1) else 0) = 0
            · rw [if_pos hzl] at hp
              cases hp
            · rw [if_neg hzl] at hp
              by_cases hdl : (if c2 + 1 < c3 then c3 - (c2 + 1) else 0) = 0
              · rw [if_pos hdl] at hp
                cases hp
              · rw [if_neg hdl] at hp
                cases hfp : fastParseHour (stripQuotes (sliceBytes line (c2 + 1)
                    (if c2 + 1 < c3 then c3 - (c2 + 1) else 0))) with
                | none => rw [hfp] at hp; cases hp
                | some hr =>
                  rw [hfp] at hp
                  dsimp only at hp
                  cases hp
                  exact fastParseHour_lt _ _ hfp

theorem bumpAt_sumTotals : ∀ (s : List Entry) (idx h : Nat), idx < s.length →
    sumTotals (bumpAt s idx h) = sumTotals s + 1
  | [], _, _, hid => by simp at hid
  | e :: es, 0, h, _ => by
      simp only [bumpAt, sumTotals, List.map_cons, List.sum_cons]
      omega
  | e :: es, i + 1, h, hid => by
      have ih := bumpAt_sumTotals es i h (by simpa using hid)
      simp only [bumpAt, sumTotals, List.map_cons, List.sum_cons] at ih ⊢
      omega

theorem bumpAt_inv : ∀ (s : List Entry) (idx h : Nat), h < 24 →
    (∀ e ∈ s, EntryInv e) → ∀ e ∈ bumpAt s idx h, EntryInv e
  | [], _, _, _, _ => by simp [bumpAt]
  | e :: es, 0, h, hh, hs => by
      intro e' he'
      simp only [bumpAt, List.mem_cons] at he'
      cases he' with
      | inl heq =>
        obtain ⟨hlen, hsum⟩ := hs e (by simp)
        subst heq
        refine ⟨?_, ?_⟩
        · show (e.hours.set h (e.hours.getD h 0 + 1)).length = 24
          rw [List.length_set]
          exact hlen
        · show (e.hours.set h (e.hours.getD h 0 + 1)).sum = e.total + 1
          rw [sum_set_getD_succ _ _ (by omega : h < e.hours.length)]
          omega
      | inr hmem => exact hs e' (by simp [hmem])
  | e :: es, i + 1, h, hh, hs => by
      intro e' he'
      simp only [bumpAt, List.mem_cons] at he'
      cases he' with
      | inl heq => exact heq ▸ hs e (by simp)
      | inr hmem =>
        exact bumpAt_inv es i h hh (fun x hx => hs x (by simp [hx])) e' hmem

theorem findZone_lt_length : ∀ (s : List Entry) (z : List Nat) (idx : Nat),
    findZone s z = some idx → idx < s.length
  | [], _, _, h => by simp [findZone] at h
  | e :: es, z, idx, h => by
      rw [findZone] at h
      by_cases hz : e.zone = z
      · rw [if_pos hz] at h
        cases h
        simp
      · rw [if_neg hz] at h
        cases hfind : findZone es z with
        | none =>
          rw [hfind] at h
          cases h
        | some j =>
          rw [hfind] at h
          simp only [Option.map_some'] at h
          cases h
          have := findZone_lt_length es z j hfind
          simp only [List.length_cons]
          omega

theorem processValid_sumTotals (s : List Entry) (z : List Nat) (h : Nat) :
    sumTotals (processValid s z h) = sumTotals s + 1 := by
  unfold processValid
  cases hf : findZone s z with
  | some idx =>
    dsimp only
    exact bumpAt_sumTotals s idx h (findZone_lt_length s z idx hf)
  | none =>
    dsimp only
    rw [bumpAt_sumTotals (s ++ [freshEntry z]) s.length h (by simp)]
    simp [sumTotals, freshEntry]

theorem processValid_inv (s : List Entry) (z : List Nat) (h : Nat) (hh : h < 24)
    (hs : ∀ e ∈ s, EntryInv e) : ∀ e ∈ processValid s z h, EntryInv e := by
  unfold processValid
  cases hf : findZone s z with
  | some idx =>
    dsimp only
    exact bumpAt_inv s idx h hh hs
  | none =>
    dsimp only
    refine bumpAt_inv _ _ _ hh ?_
    intro e he
    rw [List.mem_append] at he
    cases he with
    | inl h1 => exact hs e h1
    | inr h2 =>
      simp only [List.mem_singleton] at h2
      subst h2
      exact ⟨by simp [freshEntry], by simp [freshEntry]⟩

theorem processLine_step (s : List Entry) (line : List Nat)
    (hs : ∀ e ∈ s, EntryInv e) :
    sumTotals (processLine s line)
      = sumTotals s + (if (parseLine line).isSome then 1 else 0) ∧
    ∀ e ∈ processLine s line, EntryInv e := by
  unfold processLine
  by_cases hl : line = []
  · have hnone : parseLine ([] : List Nat) = none := rfl
    rw [if_pos hl, hl, hnone]
    simp only [Option.isSome_none, Bool.false_eq_true, if_false, Nat.add_zero]
    exact ⟨by trivial, hs⟩
  · rw [if_neg hl]
    cases hp : parseLine line with
    | none =>
      simp only [Option.isSome_none, Bool.false_eq_true, if_false, Nat.add_zero]
      exact ⟨by trivial, hs⟩
    | some zh =>
      obtain ⟨z, h⟩ := zh
      simp only [Option.isSome_some, if_true]
      exact ⟨processValid_sumTotals s z h,
        processValid_inv s z h (parseLine_hour_lt line z h hp) hs⟩

theorem processLines_conservation : ∀ (lines : List (List Nat)) (s : List Entry),
    (∀ e ∈ s, EntryInv e) →
    sumTotals (processLines s lines)
      = sumTotals s + lines.countP (fun l => (parseLine l).isSome) ∧
    ∀ e ∈ processLines s lines, EntryInv e
  | [], s, hs => by
      unfold processLines
      simp only [List.foldl_nil, List.countP_nil, Nat.add_zero]
      exact ⟨by trivial, hs⟩
  | line :: rest, s, hs => by
      have hstep := processLine_step s line hs
      have ih := processLines_conservation rest (processLine s line) hstep.2
      unfold processLines at ih ⊢
      rw [List.foldl_cons]
      refine ⟨?_, ih.2⟩
      rw [ih.1, hstep.1, List.countP_cons]
      by_cases hp : (parseLine line).isSome
      · simp only [hp, if_true]
        omega
      · simp only [hp, Bool.false_eq_true, if_false]
        omega

/-- The data lines of a source: everything after the single header line. -/
def dataLines : Option (List (List Nat)) → List (List Nat)
  | some (_ :: rest) => rest
  | _ => []

/-- **C5.** After any single ingest call, the sum of all zone totals equals
the number of data lines that passed every validity check, and each zone's
24 hour counters sum to that zone's total (each surviving line increments
exactly one total and one hour slot of the same zone by 1). -/
theorem ingest_conservation (prev : List Entry) (src : Option (List (List Nat))) :
    sumTotals (ingestFile prev src)
      = (dataLines src).countP (fun l => (parseLine l).isSome) ∧
    ∀ e ∈ ingestFile prev src, e.hours.sum = e.total ∧ e.hours.length = 24 := by
  have hbase : ∀ e ∈ ([] : List Entry), EntryInv e := by simp
  cases src with
  | none => exact ⟨rfl, by simp [ingestFile]⟩
  | some ls =>
    cases ls with
    | nil => exact ⟨rfl, by simp [ingestFile]⟩
    | cons hd rest =>
      have h := processLines_conservation rest [] hbase
      have h1 : sumTotals (processLines [] rest)
          = rest.countP (fun l => (parseLine l).isSome) := by
        rw [h.1]
        simp [sumTotals]
      exact ⟨h1, fun e he => ⟨(h.2 e he).2, (h.2 e he).1⟩⟩

/-! ### Clearing of state, and the zone registry invariants -/

/-- **C6.** `ingestFile` clears prior state unconditionally before touching
the source: an unopenable source, an empty source, and a header-only source
all return normally and leave zero zones, and the result of an ingest never
depends on the state left by earlier calls — no counts leak. -/
theorem ingest_clears_state (prev prev2 : List Entry)
    (src : Option (List (List Nat))) (hdr : List Nat) :
    ingestFile prev none = [] ∧
    ingestFile prev (some []) = [] ∧
    ingestFile prev (some [hdr]) = [] ∧
    ingestFile prev src = ingestFile prev2 src :=
  ⟨rfl, rfl, rfl, rfl⟩

/-- The `zones` vector: the registry's keys in index order. -/
def zonesOf (s : List Entry) : List (List Nat) := s.map Entry.zone

/-- One step of the first-seen zone registration order. -/
def seenStep (a : List (List Nat)) (line : List Nat) : List (List Nat) :=
  match parseLine line with
  | some (z, _) => if z ∈ a then a else a ++ [z]
  | none => a

/-- First-occurrence registration order of the valid zones of `lines`. -/
def seenZones (a : List (List Nat)) (lines : List (List Nat)) : List (List Nat) :=
  lines.foldl seenStep a

theorem zonesOf_bumpAt : ∀ (s : List Entry) (idx h : Nat),
    zonesOf (bumpAt s idx h) = zonesOf s
  | [], _, _ => rfl
  | e :: es, 0, h => rfl
  | e :: es, i + 1, h => by
      simp only [bumpAt, zonesOf, List.map_cons]
      have := zonesOf_bumpAt es i h
      simp only [zonesOf] at this
      rw [this]

theorem findZone_none_iff : ∀ (s : List Entry) (z : List Nat),
    findZone s z = none ↔ z ∉ zonesOf s
  | [], z => by simp [findZone, zonesOf]
  | e :: es, z => by
      rw [findZone]
      by_cases hz : e.zone = z
      · rw [if_pos hz]
        simp [zonesOf, hz]
      · rw [if_neg hz]
        rw [Option.map_eq_none', findZone_none_iff es z]
        simp only [zonesOf, List.map_cons, List.mem_cons, not_or]
        constructor
        · intro hnot
          exact ⟨fun heq => hz heq.symm, hnot⟩
        · intro hcon
          exact hcon.2

theorem zonesOf_processValid (s : List Entry) (z : List Nat) (h : Nat) :
    zonesOf (processValid s z h)
      = if z ∈ zonesOf s then zonesOf s else zonesOf s ++ [z] := by
  unfold processValid
  cases hf : findZone s z with
  | some idx =>
    dsimp only
    rw [zonesOf_bumpAt]
    have : ¬z ∉ zonesOf s := by
      intro hc
      rw [← findZone_none_iff] at hc
      rw [hc] at hf
      cases hf
    rw [if_pos (by tauto)]
  | none =>
    dsimp only
    rw [zonesOf_bumpAt, if_neg ((findZone_none_iff s z).mp hf)]
    simp [zonesOf, freshEntry]

theorem zonesOf_processLine (s : List Entry) (line : List Nat) :
    zonesOf (processLine s line) = seenStep (zonesOf s) line := by
  by_cases hl : line = []
  · subst hl
    rfl
  · unfold processLine seenStep
    rw [if_neg hl]
    cases hp : parseLine line with
    | none => rfl
    | some zh =>
      obtain ⟨z, h⟩ := zh
      dsimp only
      exact zonesOf_processValid s z h

theorem zonesOf_processLines : ∀ (lines : List (List Nat)) (s : List Entry),
    zonesOf (processLines s lines) = seenZones (zonesOf s) lines
  | [], s => rfl
  | line :: rest, s => by
      unfold processLines seenZones
      rw [List.foldl_cons, List.foldl_cons]
      have ih := zonesOf_processLines rest (processLine s line)
      unfold processLines seenZones at ih
      rw [ih, zonesOf_processLine]

theorem seenStep_extends (a : List (List Nat)) (line : List Nat) :
    ∃ t, seenStep a line = a ++ t := by
  unfold seenStep
  cases parseLine line with
  | none => exact ⟨[], by simp⟩
  | some zh =>
    obtain ⟨z, h⟩ := zh
    dsimp only
    by_cases hz : z ∈ a
    · exact ⟨[], by simp [hz]⟩
    · exact ⟨[z], by simp [hz]⟩

theorem seenZones_extends : ∀ (lines : List (List Nat)) (a : List (List Nat)),
    ∃ t, seenZones a lines = a ++ t
  | [], a => ⟨[], by simp [seenZones]⟩
  | line :: rest, a => by
      obtain ⟨t₁, ht₁⟩ := seenStep_extends a line
      obtain ⟨t₂, ht₂⟩ := seenZones_extends rest (seenStep a line)
      refine ⟨t₁ ++ t₂, ?_⟩
      unfold seenZones at ht₂ ⊢
      rw [List.foldl_cons, ht₂, ht₁, List.append_assoc]

theorem seenStep_nodup (a : List (List Nat)) (line : List Nat) (ha : a.Nodup) :
    (seenStep a line).Nodup := by
  unfold seenStep
  cases parseLine line with
  | none => exact ha
  | some zh =>
    obtain ⟨z, h⟩ := zh
    dsimp only
    by_cases hz : z ∈ a
    · rw [if_pos hz]
      exact ha
    · rw [if_neg hz]
      rw [List.nodup_append]
      exact ⟨ha, List.nodup_singleton z, by simp [hz]⟩

theorem seenZones_nodup : ∀ (lines : List (List Nat)) (a : List (List Nat)),
    a.Nodup → (seenZones a lines).Nodup
  | [], a, ha => ha
  | line :: rest, a, ha => by
      unfold seenZones
      rw [List.foldl_cons]
      exact seenZones_nodup rest (seenStep a line) (seenStep_nodup a line ha)

/-- **C7.** Registry invariants over one ingest pass: the registry holds the
valid zones in first-occurrence order with no duplicates; processing further
lines only appends to the zone vector (an assigned index never changes); a
zone absent from the registry is inserted at index `zones.size()` with a
zero total and 24 zero hour counters before being incremented. -/
theorem zone_registry_invariants (prev : List Entry) (src : Option (List (List Nat)))
    (s : List Entry) (z : List Nat) (h : Nat) (lines moreLines : List (List Nat)) :
    zonesOf (ingestFile prev src) = seenZones [] (dataLines src) ∧
    (zonesOf (ingestFile prev src)).Nodup ∧
    (∃ t, zonesOf (processLines s (lines ++ moreLines))
        = zonesOf (processLines s lines) ++ t) ∧
    (findZone s z = none →
      processValid s z h = bumpAt (s ++ [freshEntry z]) s.length h ∧
      freshEntry z = ⟨z, 0, List.replicate 24 0⟩) := by
  refine ⟨?_, ?_, ?_, ?_⟩
  · cases src with
    | none => rfl
    | some ls =>
      cases ls with
      | nil => rfl
      | cons hd rest => exact zonesOf_processLines rest []
  · have hmain : zonesOf (ingestFile prev src) = seenZones [] (dataLines src) := by
      cases src with
      | none => rfl
      | some ls =>
        cases ls with
        | nil => rfl
        | cons hd rest => exact zonesOf_processLines rest []
    rw [hmain]
    exact seenZones_nodup _ _ List.nodup_nil
  · unfold processLines
    rw [List.foldl_append]
    have h1 := zonesOf_processLines moreLines (List.foldl processLine s lines)
    unfold processLines at h1
    rw [h1]
    exact seenZones_extends moreLines _
  · intro hf
    constructor
    · unfold processValid
      rw [hf]
    · rfl

theorem zone_registry_invariants_witness :
    processValid [] [65] 3 = bumpAt ([] ++ [freshEntry [65]]) (List.length ([] : List Entry)) 3 ∧
      freshEntry [65] = ⟨[65], 0, List.replicate 24 0⟩ :=
  (zone_registry_invariants [] none [] [65] 3 [] []).2.2.2 rfl

/-! ### Cross-instance isolation through the side table -/

theorem lookupImpl_append_singleton : ∀ (m : ImplMap) (who other : Nat)
    (v : List Entry), other ≠ who →
    lookupImpl (m ++ [(who, v)]) other = lookupImpl m other
  | [], who, other, v, hne => by
      simp only [List.nil_append, lookupImpl]
      rw [if_neg (fun h => hne h.symm)]
  | (i, st) :: rest, who, other, v, hne => by
      simp only [List.cons_append, lookupImpl]
      by_cases hi : i = other
      · rw [if_pos hi, if_pos hi]
      · rw [if_neg hi, if_neg hi]
        exact lookupImpl_append_singleton rest who other v hne

theorem lookupImpl_setImpl_ne : ∀ (m : ImplMap) (who other : Nat)
    (v : List Entry), other ≠ who →
    lookupImpl (setImpl m who v) other = lookupImpl m other
  | [], _, _, _, _ => rfl
  | (i, st) :: rest, who, other, v, hne => by
      rw [setImpl]
      by_cases hi : i = who
      · rw [if_pos hi]
        simp only [lookupImpl]
        rw [if_neg (by omega : ¬i = other), if_neg (by omega : ¬i = other)]
      · rw [if_neg hi]
        simp only [lookupImpl]
        by_cases hio : i = other
        · rw [if_pos hio, if_pos hio]
        · rw [if_neg hio, if_neg hio]
          exact lookupImpl_setImpl_ne rest who other v hne

/-- A side table with 201 live instances, each owning (empty) state. -/
def manyInstances : ImplMap := (List.range 201).map fun i => (i, [])

set_option maxRecDepth 4000 in
/-- **C9 counterexample.** With 201 coexisting instances in the side table,
`ingestFile` on instance 0 destroys instance 1's entry (`cleanupIfNeeded`
clears the whole table), so an ingest on one instance does modify the state
of another live instance. -/
theorem instance_isolation_counterexample :
    lookupImpl (ingestFileImpl manyInstances 0 none) 1
      ≠ lookupImpl manyInstances 1 := by
  decide

/-- **C9 (amended).** Queries never modify another instance's entry, and an
ingest preserves every other instance's entry provided the side table holds
at most 200 entries when the call starts (otherwise `cleanupIfNeeded` wipes
all entries). -/
theorem instance_isolation_bounded (m : ImplMap) (who other : Nat)
    (src : Option (List (List Nat))) (hne : other ≠ who) :
    lookupImpl (getImpl m who).1 other = lookupImpl m other ∧
    (m.length ≤ 200 →
      lookupImpl (ingestFileImpl m who src) other = lookupImpl m other) := by
  have hget : ∀ m' : ImplMap, lookupImpl (getImpl m' who).1 other = lookupImpl m' other := by
    intro m'
    unfold getImpl
    cases hl : lookupImpl m' who with
    | some st => rfl
    | none => exact lookupImpl_append_singleton m' who other [] hne
  refine ⟨hget m, ?_⟩
  intro hsize
  unfold ingestFileImpl cleanupIfNeeded
  rw [if_neg (by omega : ¬200 < m.length)]
  rw [lookupImpl_setImpl_ne _ who other _ hne]
  exact hget m

theorem instance_isolation_bounded_witness :
    lookupImpl (getImpl [(0, []), (1, [])] 0).1 1 = lookupImpl [(0, []), (1, [])] 1 ∧
      lookupImpl (ingestFileImpl [(0, []), (1, [])] 0 none) 1
        = lookupImpl [(0, []), (1, [])] 1 := by
  have h := instance_isolation_bounded [(0, []), (1, [])] 0 1 none (by decide)
  exact ⟨h.1, h.2 (by decide)⟩
